import Mathlib

/-!
Shallow embedding of the answer-comparison and normalization engine of the
MyQuiz vocabulary application.

Strings are modelled as lists of Unicode code points (`MyStr := List Nat`).
The JavaScript string primitives used by the source
(`toLowerCase`, `normalize('NFD')`, the combining-mark strip, `trim`,
`split(/\s+/)`) are modelled code-point-wise with explicit finite tables
covering the alphabet that the application's data and the specification's
test vectors use (ASCII plus the Slavic/Central-European precomposed
letters); code points outside the tables are left unchanged, exactly as
the JavaScript primitives leave unknown letters unchanged.

Two normalizer implementations exist in the repository and both are
embedded here:
  * `WordComparison.normalizeText` — server/src/utils/wordComparison.ts:
    lower-case, Unicode NFD decomposition, strip combining marks
    U+0300–U+036F, trim.
  * `PracticeRoute.normalizeText` — the practice route's explicit
    substitution-table normalizer: lower-case, trim, then fourteen
    chained character-class replacements.
-/

/-- Association-list lookup on `Nat` keys (first matching entry wins). -/
def tableGet {β : Type} : List (Nat × β) → Nat → Option β
  | [], _ => none
  | (k, v) :: rest, c => if c = k then some v else tableGet rest c

/-- Strings as lists of Unicode code points. -/
abbrev MyStr := List Nat

/-- Convert a Lean string literal into its code-point list. -/
def str (s : String) : MyStr := s.data.map Char.toNat

/-- JavaScript `toLowerCase` for the alphabet used by the application:
uppercase ASCII letters and the uppercase precomposed Slavic/Central
European letters map to their lowercase forms; everything else is fixed. -/
def lowerTable : List (Nat × Nat) :=
  [(0x41, 0x61), (0x42, 0x62), (0x43, 0x63), (0x44, 0x64), (0x45, 0x65),
   (0x46, 0x66), (0x47, 0x67), (0x48, 0x68), (0x49, 0x69), (0x4A, 0x6A),
   (0x4B, 0x6B), (0x4C, 0x6C), (0x4D, 0x6D), (0x4E, 0x6E), (0x4F, 0x6F),
   (0x50, 0x70), (0x51, 0x71), (0x52, 0x72), (0x53, 0x73), (0x54, 0x74),
   (0x55, 0x75), (0x56, 0x76), (0x57, 0x77), (0x58, 0x78), (0x59, 0x79),
   (0x5A, 0x7A),
   -- Ž→ž, Ć→ć, Č→č, Š→š, Ň→ň, Ď→ď, Ť→ť, Ľ→ľ, Ł→ł, Ř→ř
   (0x17D, 0x17E), (0x106, 0x107), (0x10C, 0x10D), (0x160, 0x161),
   (0x147, 0x148), (0x10E, 0x10F), (0x164, 0x165), (0x13D, 0x13E),
   (0x141, 0x142), (0x158, 0x159),
   -- Á→á, Ä→ä, É→é, Ě→ě, Í→í, Ó→ó, Ô→ô, Ú→ú, Ů→ů, Ü→ü, Ý→ý
   (0xC1, 0xE1), (0xC4, 0xE4), (0xC9, 0xE9), (0x11A, 0x11B),
   (0xCD, 0xED), (0xD3, 0xF3), (0xD4, 0xF4), (0xDA, 0xFA),
   (0x16E, 0x16F), (0xDC, 0xFC), (0xDD, 0xFD)]

def jsToLower (c : Nat) : Nat := (tableGet lowerTable c).getD c

/-- Unicode NFD canonical decomposition, code-point-wise, for the lowercase
precomposed letters in the application's alphabet.  U+0142 (ł) has *no*
canonical decomposition in Unicode, so it is deliberately absent. -/
def nfdTable : List (Nat × List Nat) :=
  [(0x17E, [0x7A, 0x30C]),  -- ž = z + caron
   (0x107, [0x63, 0x301]),  -- ć = c + acute
   (0x10D, [0x63, 0x30C]),  -- č = c + caron
   (0x161, [0x73, 0x30C]),  -- š = s + caron
   (0x148, [0x6E, 0x30C]),  -- ň = n + caron
   (0x10F, [0x64, 0x30C]),  -- ď = d + caron
   (0x165, [0x74, 0x30C]),  -- ť = t + caron
   (0x13E, [0x6C, 0x30C]),  -- ľ = l + caron
   (0x159, [0x72, 0x30C]),  -- ř = r + caron
   (0xE1, [0x61, 0x301]),   -- á = a + acute
   (0xE4, [0x61, 0x308]),   -- ä = a + diaeresis
   (0xE9, [0x65, 0x301]),   -- é = e + acute
   (0x11B, [0x65, 0x30C]),  -- ě = e + caron
   (0xED, [0x69, 0x301]),   -- í = i + acute
   (0xF3, [0x6F, 0x301]),   -- ó = o + acute
   (0xF4, [0x6F, 0x302]),   -- ô = o + circumflex
   (0xFA, [0x75, 0x301]),   -- ú = u + acute
   (0x16F, [0x75, 0x30A]),  -- ů = u + ring
   (0xFC, [0x75, 0x308]),   -- ü = u + diaeresis
   (0xFD, [0x79, 0x301])]   -- ý = y + acute

def nfdChar (c : Nat) : List Nat := (tableGet nfdTable c).getD [c]

/-- The combining diacritical marks block U+0300–U+036F,
matching the source regex `/[̀-ͯ]/g`. -/
def isCombiningMark (c : Nat) : Bool := 0x300 ≤ c && c ≤ 0x36F

/-- JavaScript whitespace (the class matched by `\s` and stripped by
`String.prototype.trim`). -/
def isJsWhitespace (c : Nat) : Bool :=
  (9 ≤ c && c ≤ 13) || c == 0x20 || c == 0xA0 || c == 0x1680 ||
  (0x2000 ≤ c && c ≤ 0x200A) || c == 0x2028 || c == 0x2029 ||
  c == 0x202F || c == 0x205F || c == 0x3000 || c == 0xFEFF

/-- JavaScript `String.prototype.trim`: drop whitespace from both ends. -/
def jsTrim (s : MyStr) : MyStr :=
  ((s.dropWhile isJsWhitespace).reverse.dropWhile isJsWhitespace).reverse

namespace WordComparison

/-- server/src/utils/wordComparison.ts `normalizeText`:
`text.toLowerCase().normalize('NFD').replace(/[̀-ͯ]/g, '').trim()`. -/
def normalizeText (text : MyStr) : MyStr :=
  jsTrim (((text.map jsToLower).flatMap nfdChar).filter (fun c => !isCombiningMark c))

/-- server/src/utils/wordComparison.ts `splitIntoWords`:
`text.trim().split(/\s+/).filter(word => word.length > 0)` — i.e. the
maximal runs of non-whitespace characters, in order. -/
def splitIntoWordsAux : MyStr → MyStr → List MyStr
  | [], acc => if acc.isEmpty then [] else [acc.reverse]
  | c :: rest, acc =>
    if isJsWhitespace c then
      if acc.isEmpty then splitIntoWordsAux rest []
      else acc.reverse :: splitIntoWordsAux rest []
    else splitIntoWordsAux rest (c :: acc)

def splitIntoWords (text : MyStr) : List MyStr := splitIntoWordsAux text []

/-- server/src/utils/wordComparison.ts `WordDifference`. -/
structure WordDifference where
  word : MyStr
  isCorrect : Bool
  correctWord : Option MyStr
  position : Nat
deriving DecidableEq, Repr

/-- The body of the `for` loop of `compareAnswers` at index `i`:
`userWords[i] || ''` and `correctWords[i] || ''` are `getD i []`, and an
entry is pushed only when the user word is truthy (non-empty). -/
def diffAt (userWords correctWords : List MyStr) (i : Nat) : Option WordDifference :=
  let userWord := userWords.getD i []
  let correctWord := correctWords.getD i []
  if userWord = [] then none
  else
    let isCorrect := normalizeText userWord == normalizeText correctWord
    some { word := userWord, isCorrect := isCorrect,
           correctWord := if isCorrect then none else some correctWord,
           position := i }

/-- server/src/utils/wordComparison.ts `compareAnswers`: position-by-position
word diff.  The JavaScript `for` loop over `0 ≤ i < maxLength` pushing an
entry only when `userWords[i] || ''` is truthy is a `filterMap` over
`List.range maxLength`. -/
def compareAnswers (userAnswer correctAnswer : MyStr) : List WordDifference :=
  (List.range
      (max (splitIntoWords userAnswer).length (splitIntoWords correctAnswer).length)).filterMap
    (diffAt (splitIntoWords userAnswer) (splitIntoWords correctAnswer))

/-- server/src/utils/wordComparison.ts `areAnswersEquivalent`. -/
def areAnswersEquivalent (userAnswer correctAnswer : MyStr) : Bool :=
  normalizeText userAnswer == normalizeText correctAnswer

/-- server/src/utils/wordComparison.ts `compareWithMultipleAnswers` result
shape: `matchedAnswer` is an optional field, present only on exact match. -/
structure MatchResult where
  isCorrect : Bool
  bestMatch : MyStr
  wordDifferences : List WordDifference
  matchedAnswer : Option MyStr
deriving DecidableEq, Repr

/-- `n < minDifferences` where `minDifferences` starts at `Infinity`
(modelled as `none`). -/
def ltInf (n : Nat) : Option Nat → Bool
  | none => true
  | some m => decide (n < m)

/-- `differences.filter(d => !d.isCorrect).length` — the incorrect-entry
count of the tokenwise diff against one candidate. -/
def incorrectCount (userAnswer answer : MyStr) : Nat :=
  ((compareAnswers userAnswer answer).filter (fun d => !d.isCorrect)).length

/-- The best-effort loop of `compareWithMultipleAnswers`: running state is
`(bestMatch, minDifferences, bestWordDifferences)`; a candidate replaces the
champion only when its incorrect-count is *strictly* smaller. -/
def findBest (userAnswer : MyStr) :
    List MyStr → MyStr → Option Nat → List WordDifference → MyStr × List WordDifference
  | [], best, _, bestDiffs => (best, bestDiffs)
  | answer :: rest, best, minD, bestDiffs =>
    if ltInf (incorrectCount userAnswer answer) minD then
      findBest userAnswer rest answer (some (incorrectCount userAnswer answer))
        (compareAnswers userAnswer answer)
    else
      findBest userAnswer rest best minD bestDiffs

/-- server/src/utils/wordComparison.ts `compareWithMultipleAnswers`:
first the exact-match pass (first equivalent candidate wins, early return),
then the best-effort pass starting from `possibleAnswers[0] || ''` and
`minDifferences = Infinity`. -/
def compareWithMultipleAnswers (userAnswer : MyStr) (possibleAnswers : List MyStr) :
    MatchResult :=
  match possibleAnswers.find? (fun answer => areAnswersEquivalent userAnswer answer) with
  | some answer =>
    { isCorrect := true, bestMatch := answer, wordDifferences := [],
      matchedAnswer := some answer }
  | none =>
    let r := findBest userAnswer possibleAnswers (possibleAnswers.headD []) none []
    { isCorrect := false, bestMatch := r.1, wordDifferences := r.2,
      matchedAnswer := none }

end WordComparison

namespace PracticeRoute

/-- The fourteen chained `.replace(/[class]/g, r)` calls of the
practice-route normalizer, one per character class, in source order.
Each call rewrites every character of its class to the base letter. -/
def subst01 (c : Nat) : Nat := if c ∈ [0x17E, 0x17D] then 0x7A else c          -- ž Ž → z

def subst02 (c : Nat) : Nat := if c ∈ [0x107, 0x10D, 0x106, 0x10C] then 0x63 else c  -- ć č → c

def subst03 (c : Nat) : Nat := if c ∈ [0x161, 0x160] then 0x73 else c          -- š Š → s

def subst04 (c : Nat) : Nat := if c ∈ [0x148, 0x147] then 0x6E else c          -- ň Ň → n

def subst05 (c : Nat) : Nat := if c ∈ [0x10F, 0x10E] then 0x64 else c          -- ď Ď → d

def subst06 (c : Nat) : Nat := if c ∈ [0x165, 0x164] then 0x74 else c          -- ť Ť → t

def subst07 (c : Nat) : Nat := if c ∈ [0x13E, 0x13D, 0x142, 0x141] then 0x6C else c  -- ľ ł → l

def subst08 (c : Nat) : Nat := if c ∈ [0x159, 0x158] then 0x72 else c          -- ř Ř → r

def subst09 (c : Nat) : Nat := if c ∈ [0xE1, 0xE4, 0xC1, 0xC4] then 0x61 else c      -- á ä → a

def subst10 (c : Nat) : Nat := if c ∈ [0xE9, 0x11B, 0xC9, 0x11A] then 0x65 else c    -- é ě → e

def subst11 (c : Nat) : Nat := if c ∈ [0xED, 0xCD] then 0x69 else c            -- í Í → i

def subst12 (c : Nat) : Nat := if c ∈ [0xF3, 0xF4, 0xD3, 0xD4] then 0x6F else c      -- ó ô → o

def subst13 (c : Nat) : Nat := if c ∈ [0xFA, 0x16F, 0xFC, 0xDA, 0x16E, 0xDC] then 0x75 else c  -- ú ů ü → u

def subst14 (c : Nat) : Nat := if c ∈ [0xFD, 0xDD] then 0x79 else c            -- ý Ý → y

/-- server/src/routes/practice.ts `normalizeText`: lower-case, trim, then the
fourteen chained character-class replacements of the substitution table
(each `.replace` call is a character-wise map over the string). -/
def normalizeText (text : MyStr) : MyStr :=
  List.map subst14 <|
  List.map subst13 <|
  List.map subst12 <|
  List.map subst11 <|
  List.map subst10 <|
  List.map subst09 <|
  List.map subst08 <|
  List.map subst07 <|
  List.map subst06 <|
  List.map subst05 <|
  List.map subst04 <|
  List.map subst03 <|
  List.map subst02 <|
  List.map subst01 <|
  jsTrim (text.map jsToLower)

/-- The per-character composite of the fourteen substitutions of the
practice-route normalizer, applied in source order (the ž-class first). -/
def substChar : Nat → Nat :=
  subst14 ∘ subst13 ∘ subst12 ∘ subst11 ∘ subst10 ∘ subst09 ∘ subst08 ∘
    subst07 ∘ subst06 ∘ subst05 ∘ subst04 ∘ subst03 ∘ subst02 ∘ subst01

end PracticeRoute

/-- The §8 test-vector strings of the specification. -/
def specTestVectors : List MyStr :=
  [str "ŽIR", str "zir", str "čaj", str "caj", str "hello", str "world",
   str "  hello  world ", str "hello world", str "kuća", str "Kuća",
   str "dom", str "house", str "good morning", str "good evening",
   str "good night", str "dobar dan", str "dobar vece", str "hi", str "Hi",
   str "good", str "nice", str "fine", str "bad"]

/-- The diacritic→base pairs listed by the specification's §4.1 mapping
table (lowercase and uppercase variants). -/
def diacriticPairs : List (Nat × Nat) :=
  [(0x17E, 0x7A), (0x17D, 0x7A),
   (0x107, 0x63), (0x106, 0x63), (0x10D, 0x63), (0x10C, 0x63),
   (0x161, 0x73), (0x160, 0x73),
   (0x148, 0x6E), (0x147, 0x6E),
   (0x10F, 0x64), (0x10E, 0x64),
   (0x165, 0x74), (0x164, 0x74),
   (0x13E, 0x6C), (0x13D, 0x6C), (0x142, 0x6C), (0x141, 0x6C),
   (0x159, 0x72), (0x158, 0x72),
   (0xE1, 0x61), (0xC1, 0x61), (0xE4, 0x61), (0xC4, 0x61),
   (0xE9, 0x65), (0xC9, 0x65), (0x11B, 0x65), (0x11A, 0x65),
   (0xED, 0x69), (0xCD, 0x69),
   (0xF3, 0x6F), (0xD3, 0x6F), (0xF4, 0x6F), (0xD4, 0x6F),
   (0xFA, 0x75), (0xDA, 0x75), (0x16F, 0x75), (0x16E, 0x75),
   (0xFC, 0x75), (0xDC, 0x75),
   (0xFD, 0x79), (0xDD, 0x79)]

/-! ### Generic list helpers -/

theorem tableGet_mem {β : Type} {v : β} :
    ∀ {t : List (Nat × β)} {c : Nat}, tableGet t c = some v → (c, v) ∈ t := by
  intro t
  induction t with
  | nil => intro c h; simp [tableGet] at h
  | cons p rest ih =>
    intro c h
    obtain ⟨k, w⟩ := p
    by_cases hc : c = k
    · subst hc
      simp [tableGet] at h
      simp [h]
    · simp [tableGet, hc] at h
      exact List.mem_cons_of_mem _ (ih h)

theorem filterMap_eq_map_of_forall {α β : Type} {f : α → Option β} {g : α → β} :
    ∀ {l : List α}, (∀ a ∈ l, f a = some (g a)) → l.filterMap f = l.map g := by
  intro l
  induction l with
  | nil => intro _; rfl
  | cons a t ih =>
    intro h
    rw [List.filterMap_cons, h a (List.mem_cons_self a t), List.map_cons,
      ih (fun b hb => h b (List.mem_cons_of_mem a hb))]

theorem filterMap_eq_nil_of_forall {α β : Type} {f : α → Option β} :
    ∀ {l : List α}, (∀ a ∈ l, f a = none) → l.filterMap f = [] := by
  intro l
  induction l with
  | nil => intro _; rfl
  | cons a t ih =>
    intro h
    rw [List.filterMap_cons, h a (List.mem_cons_self a t),
      ih (fun b hb => h b (List.mem_cons_of_mem a hb))]

theorem flatMap_eq_self_of_forall {α : Type} {f : α → List α} :
    ∀ {l : List α}, (∀ a ∈ l, f a = [a]) → l.flatMap f = l := by
  intro l
  induction l with
  | nil => intro _; rfl
  | cons a t ih =>
    intro h
    rw [List.flatMap_cons, h a (List.mem_cons_self a t),
      ih (fun b hb => h b (List.mem_cons_of_mem a hb))]
    rfl

/-! ### Trim lemmas -/

theorem dropWhile_head_false {α : Type} (p : α → Bool) (l : List α) (x : α)
    (h : (l.dropWhile p).head? = some x) : p x = false := by
  have hw := List.head?_dropWhile_not p l
  rw [h] at hw
  exact hw

theorem dropWhile_eq_self_of_head {α : Type} (p : α → Bool) (l : List α)
    (h : ∀ x, l.head? = some x → p x = false) : l.dropWhile p = l := by
  cases l with
  | nil => rfl
  | cons a t =>
    have ha : p a = false := h a rfl
    simp [List.dropWhile_cons, ha]

theorem jsTrim_idem (l : MyStr) : jsTrim (jsTrim l) = jsTrim l := by
  unfold jsTrim
  by_cases hv : (l.dropWhile isJsWhitespace).reverse.dropWhile isJsWhitespace = []
  · rw [hv]
    simp
  · have h1 : ((l.dropWhile isJsWhitespace).reverse.dropWhile
        isJsWhitespace).reverse.dropWhile isJsWhitespace =
        ((l.dropWhile isJsWhitespace).reverse.dropWhile isJsWhitespace).reverse := by
      apply dropWhile_eq_self_of_head
      intro x hx
      rw [List.head?_reverse] at hx
      obtain ⟨w, hw⟩ := List.dropWhile_suffix
        (l := (l.dropWhile isJsWhitespace).reverse) isJsWhitespace
      rw [← List.getLast?_append_of_ne_nil w hv, hw, List.getLast?_reverse] at hx
      exact dropWhile_head_false isJsWhitespace l x hx
    rw [h1, List.reverse_reverse]
    have h2 : ((l.dropWhile isJsWhitespace).reverse.dropWhile
        isJsWhitespace).dropWhile isJsWhitespace =
        (l.dropWhile isJsWhitespace).reverse.dropWhile isJsWhitespace := by
      apply dropWhile_eq_self_of_head
      intro x hx
      exact dropWhile_head_false isJsWhitespace _ x hx
    rw [h2]

theorem mem_jsTrim {c : Nat} {l : MyStr} (h : c ∈ jsTrim l) : c ∈ l := by
  unfold jsTrim at h
  rw [List.mem_reverse] at h
  have h2 := (List.dropWhile_sublist (l := (l.dropWhile isJsWhitespace).reverse)
    isJsWhitespace).mem h
  rw [List.mem_reverse] at h2
  exact (List.dropWhile_sublist isJsWhitespace).mem h2

theorem jsTrim_append_ws_left {w x : MyStr} (h : ∀ c ∈ w, isJsWhitespace c = true) :
    jsTrim (w ++ x) = jsTrim x := by
  unfold jsTrim
  rw [List.dropWhile_append_of_pos h]

theorem jsTrim_append_ws_right {x w : MyStr} (h : ∀ c ∈ w, isJsWhitespace c = true) :
    jsTrim (x ++ w) = jsTrim x := by
  unfold jsTrim
  rw [List.dropWhile_append]
  by_cases hx : (x.dropWhile isJsWhitespace).isEmpty
  · rw [if_pos hx]
    have h1 : w.dropWhile isJsWhitespace = [] := List.dropWhile_eq_nil_iff.mpr h
    have h2 : x.dropWhile isJsWhitespace = [] := by
      cases hd : x.dropWhile isJsWhitespace with
      | nil => rfl
      | cons a t => rw [hd] at hx; simp [List.isEmpty] at hx
    rw [h1, h2]
  · rw [if_neg hx, List.reverse_append,
      List.dropWhile_append_of_pos (fun a ha => h a (List.mem_reverse.mp ha))]

/-! ### Character-level facts about the normalizer alphabet -/

theorem lowerTable_keys_not_ws : ∀ q ∈ lowerTable, isJsWhitespace q.1 = false := by decide

theorem nfdTable_keys_not_ws : ∀ q ∈ nfdTable, isJsWhitespace q.1 = false := by decide

theorem lowerTable_values_ok : ∀ q ∈ lowerTable, tableGet lowerTable q.2 = none := by decide

theorem nfdTable_values_ok : ∀ q ∈ nfdTable, ∀ d ∈ q.2,
    isCombiningMark d = true ∨
      (tableGet lowerTable d = none ∧ tableGet nfdTable d = none) := by decide

theorem ws_not_in_lowerTable {c : Nat} (h : isJsWhitespace c = true) :
    tableGet lowerTable c = none := by
  cases heq : tableGet lowerTable c with
  | none => rfl
  | some v =>
    have hmem := tableGet_mem heq
    have := lowerTable_keys_not_ws (c, v) hmem
    simp at this
    rw [h] at this
    exact absurd this (by simp)

theorem ws_not_in_nfdTable {c : Nat} (h : isJsWhitespace c = true) :
    tableGet nfdTable c = none := by
  cases heq : tableGet nfdTable c with
  | none => rfl
  | some v =>
    have hmem := tableGet_mem heq
    have := nfdTable_keys_not_ws (c, v) hmem
    simp at this
    rw [h] at this
    exact absurd this (by simp)

theorem ws_not_mark {c : Nat} (h : isJsWhitespace c = true) :
    isCombiningMark c = false := by
  simp only [isJsWhitespace, Bool.or_eq_true, Bool.and_eq_true, decide_eq_true_eq,
    beq_iff_eq] at h
  simp only [isCombiningMark, Bool.and_eq_false_iff, decide_eq_false_iff_not]
  omega

theorem ws_char_identity {c : Nat} (h : isJsWhitespace c = true) :
    jsToLower c = c ∧ nfdChar c = [c] ∧ isCombiningMark c = false := by
  refine ⟨?_, ?_, ws_not_mark h⟩
  · unfold jsToLower
    rw [ws_not_in_lowerTable h]
    rfl
  · unfold nfdChar
    rw [ws_not_in_nfdTable h]
    rfl

/-- A code point produced by lower-casing followed by NFD decomposition is,
unless it is a combining mark, inert under both steps.  This is the key fact
behind idempotence of the NFD-based normalizer. -/
theorem nfd_lower_point {a c : Nat} (hc : c ∈ nfdChar (jsToLower a))
    (hm : isCombiningMark c = false) : jsToLower c = c ∧ nfdChar c = [c] := by
  unfold jsToLower at hc
  cases h1 : tableGet lowerTable a with
  | none =>
    rw [h1] at hc
    simp only [Option.getD_none] at hc
    unfold nfdChar at hc
    cases h2 : tableGet nfdTable a with
    | none =>
      rw [h2] at hc
      simp only [Option.getD_none, List.mem_singleton] at hc
      subst hc
      constructor
      · unfold jsToLower; rw [h1]; rfl
      · unfold nfdChar; rw [h2]; rfl
    | some ds =>
      rw [h2] at hc
      simp only [Option.getD_some] at hc
      have hmem := tableGet_mem h2
      rcases nfdTable_values_ok (a, ds) hmem c hc with hmark | ⟨hl, hn⟩
      · rw [hmark] at hm; exact absurd hm (by simp)
      · exact ⟨by unfold jsToLower; rw [hl]; rfl, by unfold nfdChar; rw [hn]; rfl⟩
  | some v =>
    rw [h1] at hc
    simp only [Option.getD_some] at hc
    unfold nfdChar at hc
    cases h2 : tableGet nfdTable v with
    | none =>
      rw [h2] at hc
      simp only [Option.getD_none, List.mem_singleton] at hc
      subst hc
      have hlv := lowerTable_values_ok (a, c) (tableGet_mem h1)
      exact ⟨by unfold jsToLower; rw [hlv]; rfl, by unfold nfdChar; rw [h2]; rfl⟩
    | some ds =>
      rw [h2] at hc
      simp only [Option.getD_some] at hc
      have hmem := tableGet_mem h2
      rcases nfdTable_values_ok (v, ds) hmem c hc with hmark | ⟨hl, hn⟩
      · rw [hmark] at hm; exact absurd hm (by simp)
      · exact ⟨by unfold jsToLower; rw [hl]; rfl, by unfold nfdChar; rw [hn]; rfl⟩

namespace WordComparison

/-- Every code point surviving in the output of `normalizeText` is fixed by
lower-casing, decomposes to itself under NFD, and is not a combining mark. -/
theorem mem_normalizeText_props {s : MyStr} {c : Nat} (hc : c ∈ normalizeText s) :
    jsToLower c = c ∧ nfdChar c = [c] ∧ isCombiningMark c = false := by
  unfold normalizeText at hc
  have hc' := mem_jsTrim hc
  rw [List.mem_filter] at hc'
  obtain ⟨hmem, hmark⟩ := hc'
  have hm : isCombiningMark c = false := by
    cases hcm : isCombiningMark c
    · rfl
    · rw [hcm] at hmark; exact absurd hmark (by simp)
  rw [List.mem_flatMap] at hmem
  obtain ⟨b, hb, hcb⟩ := hmem
  rw [List.mem_map] at hb
  obtain ⟨a, _, rfl⟩ := hb
  obtain ⟨h1, h2⟩ := nfd_lower_point hcb hm
  exact ⟨h1, h2, hm⟩

/-- Whitespace padding on either side does not change `normalizeText`. -/
theorem normalizeText_ws_pad (s pre suf : MyStr)
    (hpre : ∀ c ∈ pre, isJsWhitespace c = true)
    (hsuf : ∀ c ∈ suf, isJsWhitespace c = true) :
    normalizeText (pre ++ s ++ suf) = normalizeText s := by
  have hcore : ∀ w : MyStr, (∀ c ∈ w, isJsWhitespace c = true) →
      ((w.map jsToLower).flatMap nfdChar).filter (fun c => !isCombiningMark c) = w := by
    intro w hw
    have h1 : w.map jsToLower = w := by
      calc w.map jsToLower = w.map (fun a => a) :=
            List.map_congr_left (fun a ha => (ws_char_identity (hw a ha)).1)
        _ = w := List.map_id' w
    rw [h1]
    have h2 : w.flatMap nfdChar = w :=
      flatMap_eq_self_of_forall (fun a ha => (ws_char_identity (hw a ha)).2.1)
    rw [h2]
    exact List.filter_eq_self.mpr
      (fun a ha => by rw [(ws_char_identity (hw a ha)).2.2]; rfl)
  unfold normalizeText
  rw [List.map_append, List.map_append, List.flatMap_append, List.flatMap_append,
    List.filter_append, List.filter_append, hcore pre hpre, hcore suf hsuf,
    jsTrim_append_ws_right hsuf, jsTrim_append_ws_left hpre]

end WordComparison

/-! ### Tokenizer and tokenwise-diff lemmas -/

namespace WordComparison

theorem splitIntoWordsAux_ne_nil :
    ∀ (s acc : MyStr), ∀ w ∈ splitIntoWordsAux s acc, w ≠ [] := by
  intro s
  induction s with
  | nil =>
    intro acc w hw
    unfold splitIntoWordsAux at hw
    by_cases hacc : acc.isEmpty
    · rw [if_pos hacc] at hw
      exact absurd hw (List.not_mem_nil w)
    · rw [if_neg hacc] at hw
      rw [List.mem_singleton] at hw
      subst hw
      intro hrev
      rw [List.reverse_eq_nil_iff] at hrev
      subst hrev
      exact hacc rfl
  | cons c rest ih =>
    intro acc w hw
    unfold splitIntoWordsAux at hw
    by_cases hws : isJsWhitespace c
    · rw [if_pos hws] at hw
      by_cases hacc : acc.isEmpty
      · rw [if_pos hacc] at hw
        exact ih [] w hw
      · rw [if_neg hacc] at hw
        rcases List.mem_cons.mp hw with hw | hw
        · subst hw
          intro hrev
          rw [List.reverse_eq_nil_iff] at hrev
          subst hrev
          exact hacc rfl
        · exact ih [] w hw
    · rw [if_neg hws] at hw
      exact ih (c :: acc) w hw

theorem splitIntoWords_ne_nil (s : MyStr) : ∀ w ∈ splitIntoWords s, w ≠ [] :=
  splitIntoWordsAux_ne_nil s []

theorem getD_splitIntoWords_ne_nil {s : MyStr} {i : Nat}
    (h : i < (splitIntoWords s).length) : (splitIntoWords s).getD i [] ≠ [] := by
  rw [List.getD_eq_getElem?_getD, List.getElem?_eq_getElem h, Option.getD_some]
  exact splitIntoWords_ne_nil s _ (List.getElem_mem h)

theorem getD_splitIntoWords_eq_nil {s : MyStr} {i : Nat}
    (h : (splitIntoWords s).length ≤ i) : (splitIntoWords s).getD i [] = [] := by
  rw [List.getD_eq_getElem?_getD, List.getElem?_eq_none h, Option.getD_none]

theorem diffAt_eq_some {uw cw : List MyStr} {i : Nat} (h : uw.getD i [] ≠ []) :
    diffAt uw cw i = some
      { word := uw.getD i [],
        isCorrect := normalizeText (uw.getD i []) == normalizeText (cw.getD i []),
        correctWord :=
          if normalizeText (uw.getD i []) == normalizeText (cw.getD i []) then none
          else some (cw.getD i []),
        position := i } := by
  unfold diffAt
  rw [if_neg h]

theorem diffAt_eq_none {uw cw : List MyStr} {i : Nat} (h : uw.getD i [] = []) :
    diffAt uw cw i = none := by
  unfold diffAt
  rw [if_pos h]

/-- `compareAnswers` is exactly one entry per user token, in positional
order: the `filterMap` over `range maxLength` collapses to a `map` over
`range (number of user tokens)`. -/
theorem compareAnswers_eq_map (ua ca : MyStr) :
    compareAnswers ua ca =
      (List.range (splitIntoWords ua).length).map (fun i =>
        { word := (splitIntoWords ua).getD i [],
          isCorrect := areAnswersEquivalent ((splitIntoWords ua).getD i [])
            ((splitIntoWords ca).getD i []),
          correctWord :=
            if areAnswersEquivalent ((splitIntoWords ua).getD i [])
                ((splitIntoWords ca).getD i []) then none
            else some ((splitIntoWords ca).getD i []),
          position := i }) := by
  unfold compareAnswers
  have hle : (splitIntoWords ua).length ≤
      max (splitIntoWords ua).length (splitIntoWords ca).length :=
    Nat.le_max_left _ _
  rw [← Nat.add_sub_cancel' hle, List.range_add, List.filterMap_append]
  have h1 : (List.range (splitIntoWords ua).length).filterMap
      (diffAt (splitIntoWords ua) (splitIntoWords ca)) =
      (List.range (splitIntoWords ua).length).map (fun i =>
        { word := (splitIntoWords ua).getD i [],
          isCorrect := areAnswersEquivalent ((splitIntoWords ua).getD i [])
            ((splitIntoWords ca).getD i []),
          correctWord :=
            if areAnswersEquivalent ((splitIntoWords ua).getD i [])
                ((splitIntoWords ca).getD i []) then none
            else some ((splitIntoWords ca).getD i []),
          position := i }) := by
    apply filterMap_eq_map_of_forall
    intro i hi
    exact diffAt_eq_some (getD_splitIntoWords_ne_nil (List.mem_range.mp hi))
  have h2 : ((List.range (max (splitIntoWords ua).length (splitIntoWords ca).length -
      (splitIntoWords ua).length)).map ((splitIntoWords ua).length + ·)).filterMap
      (diffAt (splitIntoWords ua) (splitIntoWords ca)) = [] := by
    apply filterMap_eq_nil_of_forall
    intro i hi
    rw [List.mem_map] at hi
    obtain ⟨j, _, rfl⟩ := hi
    exact diffAt_eq_none (getD_splitIntoWords_eq_nil (Nat.le_add_right _ _))
  rw [h1, h2, List.append_nil]

end WordComparison

/-! ### Claim theorems (first group) -/

/-- C6: `normalizeText` of the word-comparison utility is idempotent — for
all strings `s`, `normalizeText (normalizeText s) = normalizeText s`. -/
theorem normalizeText_idempotent (s : MyStr) :
    WordComparison.normalizeText (WordComparison.normalizeText s) =
      WordComparison.normalizeText s := by
  have hprops := fun c hc => WordComparison.mem_normalizeText_props (s := s) (c := c) hc
  have h1 : (WordComparison.normalizeText s).map jsToLower =
      WordComparison.normalizeText s := by
    calc (WordComparison.normalizeText s).map jsToLower
        = (WordComparison.normalizeText s).map (fun a => a) :=
          List.map_congr_left (fun a ha => (hprops a ha).1)
      _ = WordComparison.normalizeText s := List.map_id' _
  have h2 : (WordComparison.normalizeText s).flatMap nfdChar =
      WordComparison.normalizeText s :=
    flatMap_eq_self_of_forall (fun a ha => (hprops a ha).2.1)
  have h3 : (WordComparison.normalizeText s).filter (fun c => !isCombiningMark c) =
      WordComparison.normalizeText s :=
    List.filter_eq_self.mpr (fun a ha => by rw [(hprops a ha).2.2]; rfl)
  conv_lhs => rw [WordComparison.normalizeText]
  rw [h1, h2, h3, WordComparison.normalizeText]
  exact jsTrim_idem _

/-- C2 (corrected): `areAnswersEquivalent` ignores *leading and trailing*
whitespace — normalization only trims — but it does not collapse internal
whitespace runs, so the spec's vector
`equivalent("  hello  world ", "hello world") == true` fails: the internal
double space survives normalization and the two strings compare unequal. -/
theorem areAnswersEquivalent_trims_only :
    (∀ s pre suf : MyStr, (∀ c ∈ pre, isJsWhitespace c = true) →
      (∀ c ∈ suf, isJsWhitespace c = true) →
      WordComparison.areAnswersEquivalent (pre ++ s ++ suf) s = true) ∧
    WordComparison.areAnswersEquivalent (str "  hello  world ") (str "hello world") =
      false := by
  constructor
  · intro s pre suf hpre hsuf
    unfold WordComparison.areAnswersEquivalent
    rw [WordComparison.normalizeText_ws_pad s pre suf hpre hsuf]
    exact beq_self_eq_true _
  · decide

/-- Witness for C2's amended theorem: stripping the literal leading/trailing
whitespace of `"  hello world "` is accepted by `areAnswersEquivalent`. -/
theorem areAnswersEquivalent_trims_only_witness :
    WordComparison.areAnswersEquivalent (str "  " ++ str "hello world" ++ str " ")
      (str "hello world") = true :=
  areAnswersEquivalent_trims_only.1 (str "hello world") (str "  ") (str " ")
    (by decide) (by decide)

/-- C2 counterexample: contrary to the claim, the two §8 whitespace strings
are *not* equivalent — internal whitespace runs are compared verbatim. -/
theorem areAnswersEquivalent_ws_counterexample :
    ¬ (WordComparison.areAnswersEquivalent (str "  hello  world ")
        (str "hello world") = true) := by decide

/-- C9: the substitution-table normalizer of the practice route and the
NFD-based normalizer of the word-comparison utility produce identical
output on every string of the §8 test vectors. -/
theorem normalizers_agree_on_test_vectors :
    specTestVectors.all
      (fun s => PracticeRoute.normalizeText s == WordComparison.normalizeText s) =
      true := by decide

theorem map_range_getD_enumFrom {α : Type} (d : α) :
    ∀ (l : List α) (n : Nat),
      (List.range l.length).map (fun j => (n + j, l.getD j d)) = l.enumFrom n := by
  intro l
  induction l with
  | nil => intro n; rfl
  | cons a t ih =>
    intro n
    rw [List.length_cons, List.range_succ_eq_map, List.map_cons, List.map_map]
    have h1 : (n + 0, (a :: t).getD 0 d) = (n, a) := by simp
    have h2 : ((fun j => (n + j, (a :: t).getD j d)) ∘ Nat.succ) =
        (fun j => ((n + 1) + j, t.getD j d)) := by
      funext j
      rw [Function.comp_apply, List.getD_cons_succ]
      congr 1
      omega
    rw [h1, h2, ih (n + 1), List.enumFrom_cons]

theorem map_range_getD_enum {α : Type} (d : α) (l : List α) :
    (List.range l.length).map (fun j => (j, l.getD j d)) = l.enum := by
  have h := map_range_getD_enumFrom d l 0
  simp only [Nat.zero_add] at h
  rw [List.enum_eq_enumFrom]
  exact h

/-- C4: `compareAnswers` emits, for each position `i` holding a user token,
one `WordDifference` with that token as `word`, with
`isCorrect = areAnswersEquivalent` of the user token and the candidate token
at `i` (or `[]` past the candidate's length), and with `correctWord` set
exactly when incorrect; positions with no user token emit nothing.  The §8
vector `compareTokenwise("dobar dan", "dobar vece")` is included. -/
theorem compareAnswers_tokenwise_spec :
    (∀ ua ca : MyStr, WordComparison.compareAnswers ua ca =
      (List.range (WordComparison.splitIntoWords ua).length).map (fun i =>
        { word := (WordComparison.splitIntoWords ua).getD i [],
          isCorrect := WordComparison.areAnswersEquivalent
            ((WordComparison.splitIntoWords ua).getD i [])
            ((WordComparison.splitIntoWords ca).getD i []),
          correctWord :=
            if WordComparison.areAnswersEquivalent
                ((WordComparison.splitIntoWords ua).getD i [])
                ((WordComparison.splitIntoWords ca).getD i []) then none
            else some ((WordComparison.splitIntoWords ca).getD i []),
          position := i })) ∧
    WordComparison.compareAnswers (str "dobar dan") (str "dobar vece") =
      [⟨str "dobar", true, none, 0⟩, ⟨str "dan", false, some (str "vece"), 1⟩] :=
  ⟨WordComparison.compareAnswers_eq_map, by decide⟩

/-- C10: the diff list has exactly one entry per user token, in order — its
length equals the user token count and the k-th entry carries position `k`
and the k-th user token, independent of the candidate. -/
theorem compareAnswers_positions (ua ca : MyStr) :
    (WordComparison.compareAnswers ua ca).length =
      (WordComparison.splitIntoWords ua).length ∧
    (WordComparison.compareAnswers ua ca).map (fun d => (d.position, d.word)) =
      (WordComparison.splitIntoWords ua).enum := by
  constructor
  · rw [WordComparison.compareAnswers_eq_map, List.length_map, List.length_range]
  · rw [WordComparison.compareAnswers_eq_map, List.map_map]
    exact map_range_getD_enum [] (WordComparison.splitIntoWords ua)

/-- C7 (amended): a user token at a position at or beyond the candidate's
token count is compared against the empty string, so it is marked correct
precisely when its own normalized form is empty (e.g. a token consisting
solely of combining marks); every token with a non-empty normalized form is
marked incorrect there. -/
theorem overflow_tokens_correct_iff_normalize_nil (ua ca : MyStr)
    (d : WordComparison.WordDifference)
    (hd : d ∈ WordComparison.compareAnswers ua ca)
    (hpos : (WordComparison.splitIntoWords ca).length ≤ d.position) :
    d.isCorrect = (WordComparison.normalizeText d.word == ([] : MyStr)) := by
  rw [WordComparison.compareAnswers_eq_map, List.mem_map] at hd
  obtain ⟨i, _, rfl⟩ := hd
  have hpos' : (WordComparison.splitIntoWords ca).length ≤ i := hpos
  show WordComparison.areAnswersEquivalent
      ((WordComparison.splitIntoWords ua).getD i [])
      ((WordComparison.splitIntoWords ca).getD i []) =
    (WordComparison.normalizeText ((WordComparison.splitIntoWords ua).getD i []) ==
      ([] : MyStr))
  rw [WordComparison.getD_splitIntoWords_eq_nil hpos']
  rfl

/-- Witness for C7's amended theorem: for user answer `"hi extra"` against
candidate `"hi"`, the overflow token `"extra"` is emitted at position 1 and
its correctness flag equals the emptiness test of its normalized form. -/
theorem overflow_tokens_witness :
    ((⟨str "extra", false, some [], 1⟩ : WordComparison.WordDifference) ∈
      WordComparison.compareAnswers (str "hi extra") (str "hi")) ∧
    (⟨str "extra", false, some [], 1⟩ : WordComparison.WordDifference).isCorrect =
      (WordComparison.normalizeText
        (⟨str "extra", false, some [], 1⟩ : WordComparison.WordDifference).word ==
        ([] : MyStr)) :=
  ⟨by decide, overflow_tokens_correct_iff_normalize_nil (str "hi extra") (str "hi")
    ⟨str "extra", false, some [], 1⟩ (by decide) (by decide)⟩

/-- C7 counterexample: for user answer `"a ◌̌"` (the second token is the bare
combining caron U+030C) against candidate `"a"`, the token at position 1 —
beyond the candidate's token count — is marked *correct*, because both it
and the empty string normalize to the empty string. -/
theorem overflow_token_counterexample :
    ¬ (∀ d ∈ WordComparison.compareAnswers [0x61, 0x20, 0x30C] [0x61],
        (WordComparison.splitIntoWords [0x61]).length ≤ d.position →
          d.isCorrect = false) := by decide

/-- C1: if some candidate is equivalent to the user answer, the match
returns `isCorrect = true`, the *first* equivalent candidate in supplied
order as `matchedAnswer` (and `bestMatch`), and no word differences. -/
theorem compareWithMultipleAnswers_exact_first (u c : MyStr) (pre post : List MyStr)
    (hpre : ∀ a ∈ pre, WordComparison.areAnswersEquivalent u a = false)
    (hc : WordComparison.areAnswersEquivalent u c = true) :
    WordComparison.compareWithMultipleAnswers u (pre ++ c :: post) =
      { isCorrect := true, bestMatch := c, wordDifferences := [],
        matchedAnswer := some c } := by
  have hfind : (pre ++ c :: post).find?
      (fun a => WordComparison.areAnswersEquivalent u a) = some c := by
    rw [List.find?_append]
    have h1 : pre.find? (fun a => WordComparison.areAnswersEquivalent u a) = none :=
      List.find?_eq_none.mpr (fun x hx => by rw [hpre x hx]; exact Bool.false_ne_true)
    rw [h1, Option.none_or, List.find?_cons_of_pos _ hc]
  unfold WordComparison.compareWithMultipleAnswers
  rw [hfind]

/-- Witness for C1: the §8 exact-match-precedence vector. -/
theorem compareWithMultipleAnswers_exact_first_witness :
    WordComparison.compareWithMultipleAnswers (str "Kuća")
      [str "kuća", str "dom", str "house"] =
      { isCorrect := true, bestMatch := str "kuća", wordDifferences := [],
        matchedAnswer := some (str "kuća") } :=
  compareWithMultipleAnswers_exact_first (str "Kuća") (str "kuća") []
    [str "dom", str "house"] (by simp) (by decide)

/-- C8: `compareWithMultipleAnswers` is a total function; whenever it
reports `isCorrect = false` the `matchedAnswer` field is absent, and on an
empty candidate list it returns incorrect with empty `bestMatch` and no
differences. -/
theorem compareWithMultipleAnswers_failure_semantics (u : MyStr) (cs : List MyStr) :
    ((WordComparison.compareWithMultipleAnswers u cs).isCorrect = false →
      (WordComparison.compareWithMultipleAnswers u cs).matchedAnswer = none) ∧
    WordComparison.compareWithMultipleAnswers u [] =
      { isCorrect := false, bestMatch := [], wordDifferences := [],
        matchedAnswer := none } := by
  constructor
  · intro h
    unfold WordComparison.compareWithMultipleAnswers at h ⊢
    cases hf : cs.find? (fun answer => WordComparison.areAnswersEquivalent u answer) with
    | some a => rw [hf] at h; simp at h
    | none => rfl
  · rfl

/-- Witness for C8: a concrete incorrect answer has no `matchedAnswer`. -/
theorem compareWithMultipleAnswers_failure_witness :
    (WordComparison.compareWithMultipleAnswers (str "bad") [str "good"]).matchedAnswer =
      none :=
  (compareWithMultipleAnswers_failure_semantics (str "bad") [str "good"]).1 (by decide)

/-! ### Best-effort loop lemmas -/

namespace WordComparison

/-- Once the champion's count is a lower bound for every remaining
candidate, the loop never updates again: ties keep the earlier champion. -/
theorem findBest_no_update (u : MyStr) (m : Nat) :
    ∀ (answers : List MyStr) (best : MyStr) (bestDiffs : List WordDifference),
      (∀ a ∈ answers, m ≤ incorrectCount u a) →
      findBest u answers best (some m) bestDiffs = (best, bestDiffs) := by
  intro answers
  induction answers with
  | nil => intro best bestDiffs _; rfl
  | cons a rest ih =>
    intro best bestDiffs h
    have hm : m ≤ incorrectCount u a := h a (List.mem_cons_self a rest)
    unfold findBest
    have hlt : ¬ (ltInf (incorrectCount u a) (some m) = true) := by
      unfold ltInf
      simp only [decide_eq_true_eq]
      omega
    rw [if_neg hlt]
    exact ih best bestDiffs (fun b hb => h b (List.mem_cons_of_mem a hb))

/-- The first candidate attaining the minimum incorrect-count wins: if `c`
beats every earlier candidate strictly and every later candidate weakly
(and beats the running minimum), the loop returns `c` and its diff. -/
theorem findBest_first_min (u c : MyStr) :
    ∀ (pre : List MyStr), ∀ (post : List MyStr) (best : MyStr) (minD : Option Nat)
      (bestDiffs : List WordDifference),
      (∀ a ∈ pre, incorrectCount u c < incorrectCount u a) →
      (∀ a ∈ post, incorrectCount u c ≤ incorrectCount u a) →
      ltInf (incorrectCount u c) minD = true →
      findBest u (pre ++ c :: post) best minD bestDiffs =
        (c, compareAnswers u c) := by
  intro pre
  induction pre with
  | nil =>
    intro post best minD bestDiffs _ hpost hltc
    rw [List.nil_append]
    unfold findBest
    rw [if_pos hltc]
    exact findBest_no_update u (incorrectCount u c) post c (compareAnswers u c) hpost
  | cons a pre' ih =>
    intro post best minD bestDiffs hpre hpost hltc
    have ha : incorrectCount u c < incorrectCount u a :=
      hpre a (List.mem_cons_self a pre')
    have hpre' : ∀ b ∈ pre', incorrectCount u c < incorrectCount u b :=
      fun b hb => hpre b (List.mem_cons_of_mem a hb)
    rw [List.cons_append]
    unfold findBest
    by_cases hlt : ltInf (incorrectCount u a) minD = true
    · rw [if_pos hlt]
      apply ih post a (some (incorrectCount u a)) (compareAnswers u a) hpre' hpost
      unfold ltInf
      simp only [decide_eq_true_eq]
      omega
    · rw [if_neg hlt]
      exact ih post best minD bestDiffs hpre' hpost hltc

end WordComparison

/-- C3: with no exact match, `bestMatch` is the *first* candidate (in
supplied order) attaining the minimum incorrect-count of its tokenwise
diff; later candidates with an equal count never replace it, and the
returned `wordDifferences` are that candidate's diff. -/
theorem compareWithMultipleAnswers_first_min (u c : MyStr) (pre post : List MyStr)
    (hne : ∀ a ∈ pre ++ c :: post, WordComparison.areAnswersEquivalent u a = false)
    (hpre : ∀ a ∈ pre, WordComparison.incorrectCount u c < WordComparison.incorrectCount u a)
    (hpost : ∀ a ∈ post, WordComparison.incorrectCount u c ≤ WordComparison.incorrectCount u a) :
    WordComparison.compareWithMultipleAnswers u (pre ++ c :: post) =
      { isCorrect := false, bestMatch := c,
        wordDifferences := WordComparison.compareAnswers u c,
        matchedAnswer := none } := by
  have hfind : (pre ++ c :: post).find?
      (fun answer => WordComparison.areAnswersEquivalent u answer) = none :=
    List.find?_eq_none.mpr (fun x hx => by rw [hne x hx]; exact Bool.false_ne_true)
  unfold WordComparison.compareWithMultipleAnswers
  rw [hfind, WordComparison.findBest_first_min u c pre post
    ((pre ++ c :: post).headD []) none [] hpre hpost rfl]

/-- Witness for C3: the §8 tie-break vector — both candidates have exactly
one incorrect token, and the first one supplied wins deterministically. -/
theorem compareWithMultipleAnswers_first_min_witness :
    WordComparison.compareWithMultipleAnswers (str "good night")
      [str "good morning", str "good evening"] =
      { isCorrect := false, bestMatch := str "good morning",
        wordDifferences :=
          WordComparison.compareAnswers (str "good night") (str "good morning"),
        matchedAnswer := none } :=
  compareWithMultipleAnswers_first_min (str "good night") (str "good morning") []
    [str "good evening"] (by decide) (by simp) (by decide)

/-! ### Diacritic substitution table facts -/

namespace PracticeRoute

/-- The chained replacements act character-by-character: the practice-route
normalizer is the substitution map applied to every character of the
trimmed, lower-cased input. -/
theorem normalizeText_eq_map_substChar (s : MyStr) :
    normalizeText s = (jsTrim (s.map jsToLower)).map substChar := by
  simp only [normalizeText, List.map_map]
  rfl

end PracticeRoute

/-- C5 counterexample: the NFD-based `normalizeText` of the word-comparison
utility does not map ł to l — U+0142 has no canonical decomposition in
Unicode, so it survives normalization unchanged. -/
theorem normalize_l_stroke_counterexample :
    ¬ (WordComparison.normalizeText (str "ł") = str "l") := by decide

/-- C5 (amended): the substitution-table normalizer of the practice route
rewrites every character through the listed mapping and sends every listed
variant (including ł and Ł) to its base letter; the NFD-based normalizer of
the word-comparison utility sends every listed variant to its base letter
*except* ł/Ł, which it leaves as ł (no canonical decomposition). -/
theorem diacritic_mapping_amended :
    (∀ s : MyStr, PracticeRoute.normalizeText s =
      (jsTrim (s.map jsToLower)).map PracticeRoute.substChar) ∧
    (diacriticPairs.all (fun q => PracticeRoute.substChar q.1 == q.2) = true) ∧
    (diacriticPairs.all (fun q => PracticeRoute.normalizeText [q.1] == [q.2]) = true) ∧
    ((diacriticPairs.filter (fun q => !(q.1 == 0x141 || q.1 == 0x142))).all
      (fun q => WordComparison.normalizeText [q.1] == [q.2]) = true) ∧
    WordComparison.normalizeText (str "ł") = str "ł" ∧
    WordComparison.normalizeText (str "Ł") = str "ł" :=
  ⟨PracticeRoute.normalizeText_eq_map_substChar, by decide, by decide, by decide,
    by decide, by decide⟩

